import Mathlib

set_option maxHeartbeats 1000000

/-!
Shallow embedding of `src/main.rs` of the org-roam-to-obsidian converter.

Strings are modelled as `List Char`.  The org-roam SQLite rows become a
`List Node`; the `HashMap<String, Node>` index is modelled by an
association list whose lookup has the map's last-insert-wins semantics.
The regex `\[\[id:([0-9A-F-]+?)\]\[([^\]]+?)\]\]` together with
`Regex::replace_all` is modelled by a leftmost scanner (`tryMatch`) and a
single left-to-right pass (`patchText`); the `.unwrap()` panic on a
missing id is modelled as an aborting `ConvError.linkResolutionError`.
-/

/-- Error taxonomy of a converter run. -/
inductive ConvError where
  | storeLoadError : ConvError
  | linkResolutionError : List Char → ConvError
  | fileIoError : List Char → ConvError
  | converterInvocationError : ConvError
  | converterFailureError : List Char → ConvError
  deriving DecidableEq

/-- The `Node` row struct: `id`, `file`, `level`, `title` (main.rs lines 70-76). -/
structure Node where
  id : List Char
  file : List Char
  level : Int
  title : List Char
  deriving DecidableEq

/-- Model of Rust `s.replace('"', "")`: remove every quote character. -/
def stripQuotes (l : List Char) : List Char := l.filter (fun c => c ≠ '"')

/-- Model of Rust `s.replace('/', " over ")`: replace every slash by " over ". -/
def slashOver : List Char → List Char
  | [] => []
  | c :: r => (if c = '/' then [' ', 'o', 'v', 'e', 'r', ' '] else [c]) ++ slashOver r

/-- Model of Rust `s.replace(' ', "%20")` used on link targets. -/
def encodeSpaces : List Char → List Char
  | [] => []
  | c :: r => (if c = ' ' then ['%', '2', '0'] else [c]) ++ encodeSpaces r

/-- The `Node::cleanup` sanitizer (main.rs lines 79-84): strip quotes from
`title`, then replace slashes in `title` by " over "; strip quotes from
`file` and `id`. -/
def Node.cleanup (n : Node) : Node :=
  { n with
    title := slashOver (stripQuotes n.title)
    file := stripQuotes n.file
    id := stripQuotes n.id }

/-- Characters matched by the regex class `[0-9A-F-]` of the id group. -/
def isIdChar (c : Char) : Bool :=
  ('0' ≤ c && c ≤ '9') || ('A' ≤ c && c ≤ 'F') || c == '-'

/-- Characters matched by the regex class `[^\]]` of the display group. -/
def isDispChar (c : Char) : Bool := c != ']'

/-- The literal token head `[[id:`. -/
def idMark : List Char := ['[', '[', 'i', 'd', ':']

/-- Attempt to match the regex `\[\[id:([0-9A-F-]+?)\]\[([^\]]+?)\]\]` at the
head of `s`.  Both groups are lazy but their extent is forced: the id run
stops at the first character outside `[0-9A-F-]`, which must then be `][`,
and the display run stops at the first `]`, which must start `]]`.  Returns
the id group, the display group and the text after the match. -/
def tryMatch (s : List Char) : Option (List Char × List Char × List Char) :=
  if s.take 5 = idMark then
    let r0 := s.drop 5
    let i := r0.takeWhile isIdChar
    let r1 := r0.dropWhile isIdChar
    if i = [] then none
    else if r1.take 2 = [']', '['] then
      let r2 := r1.drop 2
      let d := r2.takeWhile isDispChar
      let r3 := r2.dropWhile isDispChar
      if d = [] then none
      else if r3.take 2 = [']', ']'] then some (i, d, r3.drop 2)
      else none
    else none
  else none

/-- The raw text `[[id:<i>][<d>]]` of a link token. -/
def tokenStr (i d : List Char) : List Char :=
  idMark ++ i ++ ']' :: '[' :: (d ++ [']', ']'])

theorem eq_cons_cons_of_take_two {l : List Char} {a b : Char} (h : l.take 2 = [a, b]) :
    l = a :: b :: l.drop 2 := by
  match l with
  | [] => simp at h
  | [x] => simp at h
  | x :: y :: t =>
    simp only [List.take, List.cons.injEq] at h
    obtain ⟨ha, hb, -⟩ := h
    simp [ha, hb]

theorem isIdChar_ne_rb {c : Char} (h : isIdChar c) : c ≠ ']' := by
  rintro rfl
  exact absurd h (by decide)

theorem isIdChar_ne_lb {c : Char} (h : isIdChar c) : c ≠ '[' := by
  rintro rfl
  exact absurd h (by decide)

/-- Soundness of the scanner: a successful match decomposes the text into the
literal token followed by the rest, with valid groups. -/
theorem tryMatch_shape {s i d r : List Char} (h : tryMatch s = some (i, d, r)) :
    s = tokenStr i d ++ r ∧ i ≠ [] ∧ (∀ c ∈ i, isIdChar c) ∧ d ≠ [] ∧ (∀ c ∈ d, c ≠ ']') := by
  simp only [tryMatch] at h
  split_ifs at h with h5 hi h2 hd h2'
  simp only [Option.some.injEq, Prod.mk.injEq] at h
  obtain ⟨rfl, rfl, rfl⟩ := h
  have hs : s = idMark ++ s.drop 5 := by
    conv_lhs => rw [← List.take_append_drop 5 s, h5]
  have hr0 : s.drop 5
      = (s.drop 5).takeWhile isIdChar ++ (s.drop 5).dropWhile isIdChar :=
    (List.takeWhile_append_dropWhile ..).symm
  have hr1 : (s.drop 5).dropWhile isIdChar
      = ']' :: '[' :: ((s.drop 5).dropWhile isIdChar).drop 2 :=
    eq_cons_cons_of_take_two h2
  have hr2 : ((s.drop 5).dropWhile isIdChar).drop 2
      = (((s.drop 5).dropWhile isIdChar).drop 2).takeWhile isDispChar
        ++ (((s.drop 5).dropWhile isIdChar).drop 2).dropWhile isDispChar :=
    (List.takeWhile_append_dropWhile ..).symm
  have hr3 : (((s.drop 5).dropWhile isIdChar).drop 2).dropWhile isDispChar
      = ']' :: ']' :: ((((s.drop 5).dropWhile isIdChar).drop 2).dropWhile isDispChar).drop 2 :=
    eq_cons_cons_of_take_two h2'
  refine ⟨?_, hi, ?_, hd, ?_⟩
  · conv_lhs => rw [hs, hr0, hr1, hr2, hr3]
    simp [tokenStr, idMark]
  · intro c hc
    exact List.mem_takeWhile_imp hc
  · intro c hc
    have := List.mem_takeWhile_imp hc
    simpa [isDispChar] using this

/-- Completeness of the scanner: a literal valid token at the head matches,
with exactly its groups. -/
theorem tryMatch_complete {i d : List Char} (r : List Char)
    (hi : i ≠ []) (hic : ∀ c ∈ i, isIdChar c) (hd : d ≠ []) (hdc : ∀ c ∈ d, c ≠ ']') :
    tryMatch (tokenStr i d ++ r) = some (i, d, r) := by
  have hdisp : ∀ c ∈ d, isDispChar c := by
    intro c hc
    simpa [isDispChar] using hdc c hc
  have hshape : tokenStr i d ++ r = idMark ++ (i ++ ']' :: '[' :: (d ++ ']' :: ']' :: r)) := by
    simp [tokenStr]
  rw [hshape]
  simp only [tryMatch]
  rw [List.take_left' (by rfl), List.drop_left' (by rfl)]
  rw [List.takeWhile_append_of_pos hic, List.dropWhile_append_of_pos hic]
  rw [List.takeWhile_cons_of_neg (by decide), List.dropWhile_cons_of_neg (by decide)]
  simp only [List.append_nil, List.take, List.drop]
  rw [List.takeWhile_append_of_pos hdisp, List.dropWhile_append_of_pos hdisp]
  rw [List.takeWhile_cons_of_neg (by simp [isDispChar]),
    List.dropWhile_cons_of_neg (by simp [isDispChar])]
  simp [hi, hd]

theorem tokenStr_append (i d r : List Char) :
    tokenStr i d ++ r = idMark ++ (i ++ ']' :: '[' :: (d ++ ']' :: ']' :: r)) := by
  simp [tokenStr]

theorem tryMatch_none_of_head_ne {c : Char} (s : List Char) (hc : c ≠ '[') :
    tryMatch (c :: s) = none := by
  cases e : tryMatch (c :: s) with
  | none => rfl
  | some x =>
    obtain ⟨i, d, r⟩ := x
    obtain ⟨hs, -, -, -, -⟩ := tryMatch_shape e
    rw [tokenStr_append] at hs
    simp only [idMark, List.cons_append, List.nil_append, List.cons.injEq] at hs
    exact absurd hs.1 hc

theorem tryMatch_none_of_snd_ne {c x : Char} (s : List Char) (hx : x ≠ '[') :
    tryMatch (c :: x :: s) = none := by
  cases e : tryMatch (c :: x :: s) with
  | none => rfl
  | some y =>
    obtain ⟨i, d, r⟩ := y
    obtain ⟨hs, -, -, -, -⟩ := tryMatch_shape e
    rw [tokenStr_append] at hs
    simp only [idMark, List.cons_append, List.nil_append, List.cons.injEq] at hs
    exact absurd hs.2.1 hx

theorem tryMatch_none_of_third_ne {c x y : Char} (s : List Char) (hy : y ≠ 'i') :
    tryMatch (c :: x :: y :: s) = none := by
  cases e : tryMatch (c :: x :: y :: s) with
  | none => rfl
  | some z =>
    obtain ⟨i, d, r⟩ := z
    obtain ⟨hs, -, -, -, -⟩ := tryMatch_shape e
    rw [tokenStr_append] at hs
    simp only [idMark, List.cons_append, List.nil_append, List.cons.injEq] at hs
    exact absurd hs.2.2.1 hy

/-- No match can start at a position whose text is a `]`-free run followed
directly by `]]`: the display group would stop at the first `]`, which is
not followed by `[`. -/
theorem tryMatch_none_before_close {a t : List Char} (ha : ∀ c ∈ a, c ≠ ']') :
    tryMatch (a ++ ']' :: ']' :: t) = none := by
  cases e : tryMatch (a ++ ']' :: ']' :: t) with
  | none => rfl
  | some x =>
    obtain ⟨i, d, r⟩ := x
    obtain ⟨hs, -, hic, -, -⟩ := tryMatch_shape e
    rw [tokenStr_append] at hs
    have hdw := congrArg (List.dropWhile isDispChar) hs
    rw [List.dropWhile_append_of_pos (by intro c hc; simpa [isDispChar] using ha c hc),
      List.dropWhile_cons_of_neg (by simp [isDispChar])] at hdw
    rw [List.dropWhile_append_of_pos (by decide),
      List.dropWhile_append_of_pos
        (by intro c hc; simpa [isDispChar] using isIdChar_ne_rb (hic c hc)),
      List.dropWhile_cons_of_neg (by simp [isDispChar])] at hdw
    simp at hdw

theorem dropWhile_eq_cons_imp {p : Char → Bool} {u : List Char} {c : Char} {w : List Char}
    (h : u.dropWhile p = c :: w) : ¬ p c ∧ c ∈ u := by
  induction u with
  | nil => simp at h
  | cons x xs ih =>
    rw [List.dropWhile_cons] at h
    split_ifs at h with hx
    · obtain ⟨h1, h2⟩ := ih h
      exact ⟨h1, List.mem_cons_of_mem _ h2⟩
    · injection h with h1 h2
      subst h1
      exact ⟨hx, List.mem_cons_self ..⟩

/-- No match can start at a position whose text is a `]`-free run followed by
a dot: the id run stops at a character that is not `]`, so `][` never
follows it. -/
theorem tryMatch_none_before_dot {a t : List Char} (ha : ∀ c ∈ a, c ≠ ']') :
    tryMatch (a ++ '.' :: t) = none := by
  by_cases h5 : (a ++ '.' :: t).take 5 = idMark
  · have hlen : 5 ≤ a.length := by
      by_contra hlt
      push_neg at hlt
      rw [List.take_append_eq_append_take, List.take_of_length_le (by omega)] at h5
      have hdot : '.' ∈ idMark := by
        rw [← h5]
        refine List.mem_append_right _ ?_
        have h51 : 5 - a.length = (5 - a.length - 1) + 1 := by omega
        rw [h51, List.take_succ_cons]
        exact List.mem_cons_self ..
      simp [idMark] at hdot
    have ha5 : a.take 5 = idMark := by
      rw [List.take_append_eq_append_take, Nat.sub_eq_zero_of_le hlen] at h5
      simpa using h5
    have hsplit : a = idMark ++ a.drop 5 := by
      conv_lhs => rw [← List.take_append_drop 5 a, ha5]
    have ha2 : ∀ c ∈ a.drop 5, c ≠ ']' := fun c hc => ha c (List.drop_subset _ _ hc)
    have hr1 : ((a.drop 5 ++ '.' :: t).dropWhile isIdChar).take 2 ≠ [']', '['] := by
      rw [List.dropWhile_append]
      split_ifs with he
      · rw [List.dropWhile_cons_of_neg (by decide)]
        rw [List.take_succ_cons]
        simp
      · cases hdc : (a.drop 5).dropWhile isIdChar with
        | nil => simp [hdc] at he
        | cons c w =>
          obtain ⟨-, hcmem⟩ := dropWhile_eq_cons_imp hdc
          have hcr : c ≠ ']' := ha2 c hcmem
          rw [List.cons_append, List.take_succ_cons]
          simp [hcr]
    rw [hsplit, List.append_assoc]
    simp only [tryMatch]
    rw [List.take_left' (by rfl), List.drop_left' (by rfl), if_pos rfl]
    split_ifs with h h2 h3 h4 <;> first | rfl | exact absurd h2 hr1
  · simp only [tryMatch, if_neg h5]

/-- Lookup in the association-list model of the node `HashMap`. -/
def lookupIdx : List (List Char × Node) → List Char → Option Node
  | [], _ => none
  | p :: ps, k => if p.1 = k then some p.2 else lookupIdx ps k

/-- Model of `get_nodes` (main.rs lines 156-171) given already-fetched rows:
every row is sanitized by `Node.cleanup`, then the rows are inserted into a
`HashMap` keyed by id.  The map is modelled by the reversed association
list, whose first match is the last row inserted (last-write-wins). -/
def get_nodes (rows : List Node) : List (List Char × Node) :=
  ((rows.map Node.cleanup).map (fun n => (n.id, n))).reverse

/-- The export filename component `<title>.md` (main.rs line 89): the
sanitized title, spaces kept literally. -/
def exportFileName (n : Node) : List Char := n.title ++ ['.', 'm', 'd']

/-- The link-target filename component emitted by `patch_links` (main.rs
line 143): the title with every space replaced by `%20`, then `.md`. -/
def linkFileName (n : Node) : List Char := encodeSpaces n.title ++ ['.', 'm', 'd']

/-- The replacement text `[[./<linkFileName>][<display>]]` (main.rs line 144). -/
def linkRep (n : Node) (d : List Char) : List Char :=
  '[' :: '[' :: '.' :: '/' :: (linkFileName n ++ ']' :: '[' :: (d ++ [']', ']']))

/-- Fuel-indexed single pass of `Regex::replace_all` with the patching
closure (main.rs lines 136-146): leftmost matches are replaced left to
right, replacement text is never rescanned, and a match whose id is absent
from the index aborts the pass (modelling the `.unwrap()` panic) with a
`linkResolutionError`. -/
def patchTextF (nodes : List (List Char × Node)) : Nat → List Char → Except ConvError (List Char)
  | 0, s => .ok s
  | fuel + 1, s =>
    match tryMatch s with
    | some (i, d, r) =>
      match lookupIdx nodes i with
      | some n => (patchTextF nodes fuel r).map (fun t => linkRep n d ++ t)
      | none => .error (.linkResolutionError i)
    | none =>
      match s with
      | [] => .ok []
      | c :: r => (patchTextF nodes fuel r).map (fun t => c :: t)

/-- The pure text transform of `patch_links`: one full replacement pass over
a document. -/
def patchText (nodes : List (List Char × Node)) (s : List Char) : Except ConvError (List Char) :=
  patchTextF nodes s.length s

theorem tokenStr_length (i d : List Char) :
    (tokenStr i d).length = 9 + i.length + d.length := by
  simp [tokenStr, idMark]
  omega

theorem tryMatch_rest_length {s i d r : List Char} (h : tryMatch s = some (i, d, r)) :
    r.length < s.length := by
  obtain ⟨hs, hi, -, hd, -⟩ := tryMatch_shape h
  have hlen := congrArg List.length hs
  rw [List.length_append, tokenStr_length] at hlen
  omega

theorem patchTextF_irrel (nodes : List (List Char × Node)) :
    ∀ f1 f2 s, s.length ≤ f1 → s.length ≤ f2 →
      patchTextF nodes f1 s = patchTextF nodes f2 s := by
  intro f1
  induction f1 with
  | zero =>
    intro f2 s h1 h2
    have hs : s = [] := List.eq_nil_of_length_eq_zero (Nat.le_zero.mp h1)
    subst hs
    cases f2 <;> simp [patchTextF, tryMatch, idMark]
  | succ f ih =>
    intro f2 s h1 h2
    cases f2 with
    | zero =>
      have hs : s = [] := List.eq_nil_of_length_eq_zero (Nat.le_zero.mp h2)
      subst hs
      simp [patchTextF, tryMatch, idMark]
    | succ f2' =>
      cases e : tryMatch s with
      | some x =>
        obtain ⟨i, d, r⟩ := x
        have hr := tryMatch_rest_length e
        cases hl : lookupIdx nodes i with
        | some n =>
          simp only [patchTextF, e, hl]
          rw [ih f2' r (by omega) (by omega)]
        | none => simp only [patchTextF, e, hl]
      | none =>
        cases s with
        | nil => simp [patchTextF, tryMatch, idMark]
        | cons c r =>
          simp only [List.length_cons] at h1 h2
          simp only [patchTextF, e]
          rw [ih f2' r (by omega) (by omega)]

theorem patchText_nil (nodes : List (List Char × Node)) : patchText nodes [] = .ok [] := rfl

theorem patchText_match {nodes : List (List Char × Node)} {s i d r : List Char} {n : Node}
    (e : tryMatch s = some (i, d, r)) (hl : lookupIdx nodes i = some n) :
    patchText nodes s = (patchText nodes r).map (fun t => linkRep n d ++ t) := by
  have hr := tryMatch_rest_length e
  have hm : s.length = (s.length - 1) + 1 := by omega
  unfold patchText
  rw [hm]
  simp only [patchTextF, e, hl]
  rw [patchTextF_irrel nodes (s.length - 1) r.length r (by omega) (by omega)]

theorem patchText_match_err {nodes : List (List Char × Node)} {s i d r : List Char}
    (e : tryMatch s = some (i, d, r)) (hl : lookupIdx nodes i = none) :
    patchText nodes s = .error (.linkResolutionError i) := by
  have hr := tryMatch_rest_length e
  have hm : s.length = (s.length - 1) + 1 := by omega
  unfold patchText
  rw [hm]
  simp only [patchTextF, e, hl]

theorem patchText_copy {nodes : List (List Char × Node)} {c : Char} {r : List Char}
    (e : tryMatch (c :: r) = none) :
    patchText nodes (c :: r) = (patchText nodes r).map (fun t => c :: t) := by
  unfold patchText
  simp only [List.length_cons, patchTextF, e]

theorem exceptMap_ok {E A B : Type} {x : Except E A} {f : A → B} {y : B}
    (h : x.map f = .ok y) : ∃ z, x = .ok z ∧ y = f z := by
  cases x with
  | error e => simp [Except.map] at h
  | ok z =>
    refine ⟨z, rfl, ?_⟩
    simpa [Except.map] using h.symm

/-- Inversion of one step of the replacement pass on a successful run. -/
theorem patchText_inv {nodes : List (List Char × Node)} {r out : List Char}
    (h : patchText nodes r = .ok out) :
    (r = [] ∧ out = []) ∨
    (∃ c t t', r = c :: t ∧ tryMatch r = none ∧ patchText nodes t = .ok t' ∧ out = c :: t') ∨
    (∃ i d t n t', tryMatch r = some (i, d, t) ∧ lookupIdx nodes i = some n ∧
      patchText nodes t = .ok t' ∧ out = linkRep n d ++ t') := by
  cases e : tryMatch r with
  | some x =>
    obtain ⟨i, d, t⟩ := x
    cases hl : lookupIdx nodes i with
    | some n =>
      rw [patchText_match e hl] at h
      obtain ⟨t', ht, rfl⟩ := exceptMap_ok h
      exact Or.inr (Or.inr ⟨i, d, t, n, t', rfl, hl, ht, rfl⟩)
    | none =>
      rw [patchText_match_err e hl] at h
      simp at h
  | none =>
    cases r with
    | nil =>
      rw [patchText_nil] at h
      injection h with h'
      exact Or.inl ⟨rfl, h'.symm⟩
    | cons c t =>
      rw [patchText_copy e] at h
      obtain ⟨t', ht, rfl⟩ := exceptMap_ok h
      exact Or.inr (Or.inl ⟨c, t, t', rfl, rfl, ht, rfl⟩)

theorem mem_encodeSpaces {c : Char} {l : List Char} (hc : c ∈ encodeSpaces l) :
    c ∈ l ∨ c = '%' ∨ c = '2' ∨ c = '0' := by
  induction l with
  | nil => simp [encodeSpaces] at hc
  | cons x r ih =>
    simp only [encodeSpaces, List.mem_append] at hc
    rcases hc with h | h
    · split_ifs at h with hx
      · simp only [List.mem_cons, List.not_mem_nil, or_false] at h
        rcases h with rfl | rfl | rfl
        · exact Or.inr (Or.inl rfl)
        · exact Or.inr (Or.inr (Or.inl rfl))
        · exact Or.inr (Or.inr (Or.inr rfl))
      · simp only [List.mem_cons, List.not_mem_nil, or_false] at h
        subst h
        exact Or.inl (List.mem_cons_self ..)
    · rcases ih h with h' | h'
      · exact Or.inl (List.mem_cons_of_mem _ h')
      · exact Or.inr h'

theorem encodeSpaces_no_rb {l : List Char} (hl : ']' ∉ l) :
    ∀ c ∈ encodeSpaces l, c ≠ ']' := by
  intro c hc
  rintro rfl
  rcases mem_encodeSpaces hc with h | h | h | h
  · exact hl h
  · exact absurd h (by decide)
  · exact absurd h (by decide)
  · exact absurd h (by decide)

theorem linkRep_eq (n : Node) (d : List Char) :
    linkRep n d = '[' :: '[' :: '.' :: '/' ::
      (encodeSpaces n.title ++ '.' :: 'm' :: 'd' :: ']' :: '[' :: (d ++ [']', ']'])) := by
  simp [linkRep, linkFileName]

theorem linkRep_append (n : Node) (d u : List Char) :
    linkRep n d ++ u
      = ('[' :: '[' :: '.' :: '/' :: (encodeSpaces n.title ++ ['.', 'm', 'd']))
        ++ (']' :: '[' :: (d ++ ']' :: ']' :: u)) := by
  simp [linkRep, linkFileName]

theorem all_disp_linkRep_head {n : Node} (hE : ∀ c ∈ encodeSpaces n.title, c ≠ ']') :
    ∀ c ∈ ('[' :: '[' :: '.' :: '/' :: (encodeSpaces n.title ++ ['.', 'm', 'd'])), isDispChar c := by
  intro c hc
  simp only [List.mem_cons, List.mem_append] at hc
  rcases hc with rfl | rfl | rfl | rfl | hc | hc
  · decide
  · decide
  · decide
  · decide
  · simp only [isDispChar, bne_iff_ne, ne_eq]
    exact hE c hc
  · simp only [List.mem_cons, List.not_mem_nil, or_false] at hc
    rcases hc with rfl | rfl | rfl <;> decide

/-- Copy-back: if a successful pass over `r` produced output starting with a
character other than `[`, that character was copied from `r` and no match
started there. -/
theorem copy_back_char {nodes : List (List Char × Node)} {r t' : List Char} {x : Char}
    (h : patchText nodes r = .ok (x :: t')) (hx : x ≠ '[') :
    ∃ t, r = x :: t ∧ tryMatch r = none ∧ patchText nodes t = .ok t' := by
  rcases patchText_inv h with ⟨-, h2⟩ | ⟨c, t, u, rfl, e, ht, hout⟩ |
    ⟨i, d, t, n, u, e, hl, ht, hout⟩
  · simp at h2
  · injection hout with h1 h2
    subst h1
    subst h2
    exact ⟨t, rfl, e, ht⟩
  · rw [linkRep_append] at hout
    simp only [List.cons_append, List.cons.injEq] at hout
    exact absurd hout.1 hx

/-- Copy-back for `[` when the next output character is not `[`: the output
of a replacement always starts with `[[`. -/
theorem copy_back_lb2 {nodes : List (List Char × Node)} {r t' : List Char} {x : Char}
    (h : patchText nodes r = .ok ('[' :: x :: t')) (hx : x ≠ '[') :
    ∃ t, r = '[' :: t ∧ tryMatch r = none ∧ patchText nodes t = .ok (x :: t') := by
  rcases patchText_inv h with ⟨-, h2⟩ | ⟨c, t, u, rfl, e, ht, hout⟩ |
    ⟨i, d, t, n, u, e, hl, ht, hout⟩
  · simp at h2
  · injection hout with h1 h2
    subst h1
    subst h2
    exact ⟨t, rfl, e, ht⟩
  · rw [linkRep_append] at hout
    simp only [List.cons_append, List.cons.injEq] at hout
    exact absurd hout.2.1 hx

/-- Copy-back for a `[`-free run of output characters. -/
theorem copy_back_run {nodes : List (List Char × Node)} {u : List Char}
    (hu : ∀ c ∈ u, c ≠ '[') :
    ∀ {r t' : List Char}, patchText nodes r = .ok (u ++ t') →
      ∃ t, r = u ++ t ∧ patchText nodes t = .ok t' := by
  induction u with
  | nil =>
    intro r t' h
    exact ⟨r, rfl, h⟩
  | cons c u' ih =>
    intro r t' h
    rw [List.cons_append] at h
    obtain ⟨t, rfl, -, ht⟩ := copy_back_char h (hu c (List.mem_cons_self ..))
    obtain ⟨t2, rfl, ht2⟩ := ih (fun x hx => hu x (List.mem_cons_of_mem _ hx)) ht
    exact ⟨t2, rfl, ht2⟩

/-- Copy-back for `[` when the output continues with a `]`-free run and then
`]]`: a replacement's output has its first `]` followed by `[`, never by
`]`, provided no indexed title contains `]`. -/
theorem copy_back_lb {nodes : List (List Char × Node)}
    (H : ∀ i n, lookupIdx nodes i = some n → ']' ∉ n.title)
    {r a b : List Char} (ha : ∀ c ∈ a, c ≠ ']')
    (h : patchText nodes r = .ok ('[' :: (a ++ ']' :: ']' :: b))) :
    ∃ t, r = '[' :: t ∧ tryMatch r = none ∧ patchText nodes t = .ok (a ++ ']' :: ']' :: b) := by
  rcases patchText_inv h with ⟨-, h2⟩ | ⟨c, t, u, rfl, e, ht, hout⟩ |
    ⟨i, d, t, n, u, e, hl, ht, hout⟩
  · simp at h2
  · injection hout with h1 h2
    subst h1
    subst h2
    exact ⟨t, rfl, e, ht⟩
  · exfalso
    have hE : ∀ c ∈ encodeSpaces n.title, c ≠ ']' := encodeSpaces_no_rb (H _ _ hl)
    have hdw := congrArg (List.dropWhile isDispChar) hout
    rw [show ('[' :: (a ++ ']' :: ']' :: b)) = ('[' :: a) ++ ']' :: ']' :: b by simp] at hdw
    rw [List.dropWhile_append_of_pos (by
        intro c hc
        rcases List.mem_cons.mp hc with rfl | hc
        · decide
        · simpa [isDispChar] using ha c hc)] at hdw
    rw [List.dropWhile_cons_of_neg (by simp [isDispChar])] at hdw
    rw [linkRep_append] at hdw
    rw [List.dropWhile_append_of_pos (all_disp_linkRep_head hE)] at hdw
    rw [List.dropWhile_cons_of_neg (by simp [isDispChar])] at hdw
    simp at hdw

/-- Copy-back for a whole display-like region: a `]`-free run followed by
`]]` in the output was copied verbatim from the input. -/
theorem copy_back_disp {nodes : List (List Char × Node)}
    (H : ∀ i n, lookupIdx nodes i = some n → ']' ∉ n.title) :
    ∀ (a : List Char) {r b : List Char}, (∀ c ∈ a, c ≠ ']') →
      patchText nodes r = .ok (a ++ ']' :: ']' :: b) →
      ∃ t, r = a ++ ']' :: ']' :: t ∧ patchText nodes t = .ok b := by
  intro a
  induction a with
  | nil =>
    intro r b ha h
    simp only [List.nil_append] at h ⊢
    obtain ⟨t1, rfl, -, ht1⟩ := copy_back_char h (by decide)
    obtain ⟨t2, rfl, -, ht2⟩ := copy_back_char ht1 (by decide)
    exact ⟨t2, rfl, ht2⟩
  | cons c a' ih =>
    intro r b ha h
    rw [List.cons_append] at h
    by_cases hc : c = '['
    · subst hc
      obtain ⟨t, rfl, -, ht⟩ := copy_back_lb H (fun x hx => ha x (List.mem_cons_of_mem _ hx)) h
      obtain ⟨t2, rfl, ht2⟩ := ih (fun x hx => ha x (List.mem_cons_of_mem _ hx)) ht
      exact ⟨t2, rfl, ht2⟩
    · obtain ⟨t, rfl, -, ht⟩ := copy_back_char h hc
      obtain ⟨t2, rfl, ht2⟩ := ih (fun x hx => ha x (List.mem_cons_of_mem _ hx)) ht
      exact ⟨t2, rfl, ht2⟩

/-- Reflection: if after patching `r` the output `r'` begins (after a `[`) a
full token, then the input `r` already began that token there, provided no
indexed title contains `]`.  Used to show copied characters stay copied. -/
theorem match_reflect {nodes : List (List Char × Node)}
    (H : ∀ i n, lookupIdx nodes i = some n → ']' ∉ n.title)
    {r r' i d rest : List Char}
    (h : patchText nodes r = .ok r')
    (e : tryMatch ('[' :: r') = some (i, d, rest)) :
    tryMatch ('[' :: r) ≠ none := by
  obtain ⟨hs, hi, hic, hd, hdc⟩ := tryMatch_shape e
  rw [tokenStr_append] at hs
  simp only [idMark, List.cons_append, List.nil_append, List.cons.injEq] at hs
  obtain ⟨-, hr'⟩ := hs
  rw [hr'] at h
  obtain ⟨t1, rfl, -, h1⟩ := copy_back_lb2 h (by decide)
  obtain ⟨t2, rfl, -, h2⟩ := copy_back_char h1 (by decide)
  obtain ⟨t3, rfl, -, h3⟩ := copy_back_char h2 (by decide)
  obtain ⟨t4, rfl, -, h4⟩ := copy_back_char h3 (by decide)
  obtain ⟨t5, rfl, h5⟩ := copy_back_run (fun c hc => isIdChar_ne_lb (hic c hc)) h4
  obtain ⟨t6, rfl, -, h6⟩ := copy_back_char h5 (by decide)
  obtain ⟨t7, rfl, -, h7⟩ := copy_back_lb H hdc h6
  obtain ⟨t8, rfl, -⟩ := copy_back_disp H d hdc h7
  have hcomp := tryMatch_complete (i := i) (d := d) t8 hi hic hd hdc
  rw [tokenStr_append] at hcomp
  simp only [idMark, List.cons_append, List.nil_append] at hcomp
  simp [hcomp]

/-- Forward copying: if no match can start at any position inside `u`
(whatever follows), the pass over `u ++ v` copies `u` and continues on `v`. -/
theorem copy_forward {nodes : List (List Char × Node)} :
    ∀ (u : List Char) {v v' : List Char},
      (∀ k, k < u.length → tryMatch (u.drop k ++ v) = none) →
      patchText nodes v = .ok v' →
      patchText nodes (u ++ v) = .ok (u ++ v') := by
  intro u
  induction u with
  | nil =>
    intro v v' _ h
    simpa using h
  | cons c u' ih =>
    intro v v' hk h
    have h0 : tryMatch (c :: (u' ++ v)) = none := by
      have := hk 0 (by simp)
      simpa using this
    rw [List.cons_append, patchText_copy h0]
    rw [ih (fun k hklt => by simpa using hk (k + 1) (by simpa using hklt)) h]
    simp [Except.map]

/-- No match can start anywhere inside a display region `d ++ ]]`. -/
theorem nt_disp {d : List Char} (hd : ∀ c ∈ d, c ≠ ']') :
    ∀ k, k < (d ++ [']', ']']).length → ∀ t, tryMatch ((d ++ [']', ']']).drop k ++ t) = none := by
  induction d with
  | nil =>
    intro k hk t
    simp only [List.nil_append, List.length_cons, List.length_nil] at hk
    rcases k with _ | _ | k
    · exact tryMatch_none_of_head_ne _ (by decide)
    · exact tryMatch_none_of_head_ne _ (by decide)
    · omega
  | cons c d' ih =>
    intro k hk t
    rcases k with _ | k'
    · have hall : ∀ x ∈ c :: d', x ≠ ']' := hd
      simpa [List.append_assoc] using tryMatch_none_before_close (t := t) hall
    · have := ih (fun x hx => hd x (List.mem_cons_of_mem _ hx)) k' (by simpa using hk) t
      simpa using this

/-- No match can start anywhere inside the tail `<E>.md][<d>]]` of a
replacement, for `]`-free `E` and `d`, whatever text follows. -/
theorem nt_body {E d : List Char} (hE : ∀ c ∈ E, c ≠ ']') (hd : ∀ c ∈ d, c ≠ ']') :
    ∀ k, k < (E ++ '.' :: 'm' :: 'd' :: ']' :: '[' :: (d ++ [']', ']'])).length →
      ∀ t, tryMatch ((E ++ '.' :: 'm' :: 'd' :: ']' :: '[' :: (d ++ [']', ']'])).drop k ++ t)
        = none := by
  induction E with
  | nil =>
    intro k hk t
    simp only [List.nil_append] at hk ⊢
    rcases k with _ | _ | _ | _ | _ | k5
    · exact tryMatch_none_of_head_ne _ (by decide)
    · exact tryMatch_none_of_head_ne _ (by decide)
    · exact tryMatch_none_of_head_ne _ (by decide)
    · exact tryMatch_none_of_head_ne _ (by decide)
    · have hall : ∀ x ∈ '[' :: d, x ≠ ']' := by
        intro x hx
        rcases List.mem_cons.mp hx with rfl | hx
        · decide
        · exact hd x hx
      simpa [List.append_assoc] using tryMatch_none_before_close (t := t) hall
    · have hk5 : k5 < (d ++ [']', ']']).length := by
        simp only [List.length_cons] at hk
        omega
      simpa using nt_disp hd k5 hk5 t
  | cons c E' ih =>
    intro k hk t
    rcases k with _ | k'
    · have := tryMatch_none_before_dot
        (a := c :: E') (t := ('m' :: 'd' :: ']' :: '[' :: (d ++ [']', ']'])) ++ t) hE
      simpa [List.append_assoc] using this
    · have := ih (fun x hx => hE x (List.mem_cons_of_mem _ hx)) k' (by simpa using hk) t
      simpa using this

/-- No match can start at any position inside a replacement `[[./<E>.md][<d>]]`
whatever text follows, provided `E` and `d` contain no `]`. -/
theorem nt_linkRep {n : Node} {d : List Char}
    (hE : ∀ c ∈ encodeSpaces n.title, c ≠ ']') (hd : ∀ c ∈ d, c ≠ ']') :
    ∀ k, k < (linkRep n d).length → ∀ t, tryMatch ((linkRep n d).drop k ++ t) = none := by
  intro k hk t
  rw [linkRep_eq] at hk ⊢
  rcases k with _ | _ | _ | _ | k4
  · exact tryMatch_none_of_third_ne _ (by decide)
  · exact tryMatch_none_of_snd_ne _ (by decide)
  · exact tryMatch_none_of_head_ne _ (by decide)
  · exact tryMatch_none_of_head_ne _ (by decide)
  · have hk4 : k4 < (encodeSpaces n.title
        ++ '.' :: 'm' :: 'd' :: ']' :: '[' :: (d ++ [']', ']'])).length := by
      simp only [List.length_cons] at hk
      omega
    simpa using nt_body hE hd k4 hk4 t

/-- Fixpoint property: with `]`-free indexed titles, the output of one
successful replacement pass is left unchanged by another pass. -/
theorem patchText_fix {nodes : List (List Char × Node)}
    (H : ∀ i n, lookupIdx nodes i = some n → ']' ∉ n.title) :
    ∀ (L : Nat) (s out : List Char), s.length ≤ L →
      patchText nodes s = .ok out → patchText nodes out = .ok out := by
  intro L
  induction L with
  | zero =>
    intro s out h1 h
    have hs : s = [] := List.eq_nil_of_length_eq_zero (Nat.le_zero.mp h1)
    subst hs
    rw [patchText_nil] at h
    injection h with h'
    rw [← h']
    exact patchText_nil nodes
  | succ L ih =>
    intro s out hlen h
    cases e : tryMatch s with
    | some x =>
      obtain ⟨i, d, r⟩ := x
      cases hl : lookupIdx nodes i with
      | none =>
        rw [patchText_match_err e hl] at h
        simp at h
      | some n =>
        rw [patchText_match e hl] at h
        obtain ⟨r', hr', rfl⟩ := exceptMap_ok h
        have hrlen := tryMatch_rest_length e
        have ihr : patchText nodes r' = .ok r' := ih r r' (by omega) hr'
        have hdc : ∀ c ∈ d, c ≠ ']' := (tryMatch_shape e).2.2.2.2
        have hE : ∀ c ∈ encodeSpaces n.title, c ≠ ']' := encodeSpaces_no_rb (H i n hl)
        exact copy_forward _ (fun k hk => nt_linkRep hE hdc k hk r') ihr
    | none =>
      cases s with
      | nil =>
        rw [patchText_nil] at h
        injection h with h'
        rw [← h']
        exact patchText_nil nodes
      | cons c r =>
        rw [patchText_copy e] at h
        obtain ⟨r', hr', rfl⟩ := exceptMap_ok h
        have hrlen : r.length ≤ L := by
          simp only [List.length_cons] at hlen
          omega
        have ihr : patchText nodes r' = .ok r' := ih r r' hrlen hr'
        have hnone : tryMatch (c :: r') = none := by
          cases e2 : tryMatch (c :: r') with
          | none => rfl
          | some y =>
            obtain ⟨i, d, rest⟩ := y
            obtain ⟨hs2, -, -, -, -⟩ := tryMatch_shape e2
            rw [tokenStr_append] at hs2
            simp only [idMark, List.cons_append, List.nil_append, List.cons.injEq] at hs2
            obtain ⟨rfl, -⟩ := hs2
            exact absurd e (match_reflect H hr' e2)
        rw [patchText_copy hnone, ihr]
        simp [Except.map]

/-- Fuel-indexed scan listing the id and display groups of all leftmost
non-overlapping matches of a document, in document order. -/
def tokensOfF : Nat → List Char → List (List Char × List Char)
  | 0, _ => []
  | fuel + 1, s =>
    match tryMatch s with
    | some (i, d, r) => (i, d) :: tokensOfF fuel r
    | none =>
      match s with
      | [] => []
      | _ :: r => tokensOfF fuel r

/-- The link tokens of a document, as the regex pass visits them. -/
def tokensOf (s : List Char) : List (List Char × List Char) := tokensOfF s.length s

theorem tokensOfF_irrel :
    ∀ f1 f2 s, s.length ≤ f1 → s.length ≤ f2 → tokensOfF f1 s = tokensOfF f2 s := by
  intro f1
  induction f1 with
  | zero =>
    intro f2 s h1 h2
    have hs : s = [] := List.eq_nil_of_length_eq_zero (Nat.le_zero.mp h1)
    subst hs
    cases f2 <;> simp [tokensOfF, tryMatch, idMark]
  | succ f ih =>
    intro f2 s h1 h2
    cases f2 with
    | zero =>
      have hs : s = [] := List.eq_nil_of_length_eq_zero (Nat.le_zero.mp h2)
      subst hs
      simp [tokensOfF, tryMatch, idMark]
    | succ f2' =>
      cases e : tryMatch s with
      | some x =>
        obtain ⟨i, d, r⟩ := x
        have hr := tryMatch_rest_length e
        simp only [tokensOfF, e]
        rw [ih f2' r (by omega) (by omega)]
      | none =>
        cases s with
        | nil => simp [tokensOfF, tryMatch, idMark]
        | cons c r =>
          simp only [List.length_cons] at h1 h2
          simp only [tokensOfF, e]
          exact ih f2' r (by omega) (by omega)

theorem tokensOf_match {s i d r : List Char} (e : tryMatch s = some (i, d, r)) :
    tokensOf s = (i, d) :: tokensOf r := by
  have hr := tryMatch_rest_length e
  have hm : s.length = (s.length - 1) + 1 := by omega
  unfold tokensOf
  rw [hm]
  simp only [tokensOfF, e]
  rw [tokensOfF_irrel (s.length - 1) r.length r (by omega) (by omega)]

theorem tokensOf_copy {c : Char} {r : List Char} (e : tryMatch (c :: r) = none) :
    tokensOf (c :: r) = tokensOf r := by
  unfold tokensOf
  simp only [List.length_cons, tokensOfF, e]

/-- A document with a token whose id the index does not map makes the
replacement pass abort with a `linkResolutionError` (no silent drop or
pass-through), naming some unmapped id. -/
theorem patchText_err_of_unmapped {nodes : List (List Char × Node)} :
    ∀ (L : Nat) (s : List Char), s.length ≤ L →
      (∃ p ∈ tokensOf s, lookupIdx nodes p.1 = none) →
      ∃ i, patchText nodes s = .error (.linkResolutionError i) ∧ lookupIdx nodes i = none := by
  intro L
  induction L with
  | zero =>
    intro s h1 hex
    have hs : s = [] := List.eq_nil_of_length_eq_zero (Nat.le_zero.mp h1)
    subst hs
    obtain ⟨p, hp, -⟩ := hex
    simp [tokensOf, tokensOfF] at hp
  | succ L ih =>
    intro s hlen hex
    cases e : tryMatch s with
    | some x =>
      obtain ⟨i, d, r⟩ := x
      have hr := tryMatch_rest_length e
      cases hl : lookupIdx nodes i with
      | none => exact ⟨i, patchText_match_err e hl, hl⟩
      | some n =>
        obtain ⟨p, hp, hpn⟩ := hex
        rw [tokensOf_match e] at hp
        rcases List.mem_cons.mp hp with rfl | hp
        · rw [hl] at hpn
          simp at hpn
        · obtain ⟨i', herr, hnone⟩ := ih r (by omega) ⟨p, hp, hpn⟩
          refine ⟨i', ?_, hnone⟩
          rw [patchText_match e hl, herr]
          rfl
    | none =>
      cases s with
      | nil =>
        obtain ⟨p, hp, -⟩ := hex
        simp [tokensOf, tokensOfF] at hp
      | cons c r =>
        obtain ⟨p, hp, hpn⟩ := hex
        rw [tokensOf_copy e] at hp
        simp only [List.length_cons] at hlen
        obtain ⟨i', herr, hnone⟩ := ih r (by omega) ⟨p, hp, hpn⟩
        refine ⟨i', ?_, hnone⟩
        rw [patchText_copy e, herr]
        rfl

/-- A filesystem snapshot: association list from path to file contents. -/
abbrev FS := List (List Char × List Char)

/-- Read a file, `none` when the path is absent. -/
def fsRead : FS → List Char → Option (List Char)
  | [], _ => none
  | p :: ps, k => if p.1 = k then some p.2 else fsRead ps k

/-- Overwrite a file at a path. -/
def fsWrite (fs : FS) (k v : List Char) : FS := (k, v) :: fs

/-- The `patch_links` function (main.rs lines 131-153): read the node's
backing file, run the replacement pass over its contents, write the result
back to the same path.  Read failure is a `fileIoError` naming the path. -/
def patch_links (nodes : List (List Char × Node)) (n : Node) (fs : FS) : Except ConvError FS :=
  match fsRead fs n.file with
  | none => .error (.fileIoError n.file)
  | some contents =>
    match patchText nodes contents with
    | .error e => .error e
    | .ok out => .ok (fsWrite fs n.file out)

/-- The opaque external converter (the emacs subprocess): given the node,
the destination path and the filesystem, it either fails or returns the
updated filesystem. -/
def Converter := Node → List Char → FS → Except ConvError FS

/-- The `export` function (main.rs lines 88-128): compute the target file
`<target_dir>/<title>.md`; if it already exists return success at once,
otherwise invoke the converter.  The boolean records whether the converter
was invoked. -/
def exportNode (conv : Converter) (target_dir : List Char) (n : Node) (fs : FS) :
    Except ConvError (FS × Bool) :=
  let target_file := target_dir ++ '/' :: exportFileName n
  if (fsRead fs target_file).isSome then .ok (fs, false)
  else
    match conv n target_file fs with
    | .error e => .error e
    | .ok fs2 => .ok (fs2, true)

/-- The patch loop of `main` (main.rs lines 49-54): patch every node in
order, aborting on the first error. -/
def patchPass (nodes : List (List Char × Node)) : List Node → FS → Except ConvError FS
  | [], fs => .ok fs
  | n :: rest, fs =>
    match patch_links nodes n fs with
    | .error e => .error e
    | .ok fs2 => patchPass nodes rest fs2

/-- The export loop of `main` (main.rs lines 59-64): export every node in
order, aborting on the first error. -/
def exportPass (conv : Converter) (target_dir : List Char) :
    List Node → FS → Except ConvError FS
  | [], fs => .ok fs
  | n :: rest, fs =>
    match exportNode conv target_dir n fs with
    | .error e => .error e
    | .ok (fs2, _) => exportPass conv target_dir rest fs2

/-- The orchestration of `main` (main.rs lines 40-67): the full patch pass
over all indexed nodes, then the full export pass over the same nodes. -/
def runPipeline (conv : Converter) (target_dir : List Char)
    (nodes : List (List Char × Node)) (fs : FS) : Except ConvError FS :=
  match patchPass nodes (nodes.map Prod.snd) fs with
  | .error e => .error e
  | .ok fs2 => exportPass conv target_dir (nodes.map Prod.snd) fs2

/-- Observable pipeline steps, recording which node id each step handles. -/
inductive Event where
  | patchEv : List Char → Event
  | exportEv : List Char → Event
  deriving DecidableEq

/-- The step sequence of `main` (main.rs lines 49-64): the patch loop over
`nodes.values()` runs to completion before the export loop starts, over the
same iteration order. -/
def pipelineTrace (nodes : List (List Char × Node)) : List Event :=
  nodes.map (fun p => Event.patchEv p.1) ++ nodes.map (fun p => Event.exportEv p.1)

theorem stripQuotes_not_mem (l : List Char) : '"' ∉ stripQuotes l := by
  intro h
  rw [stripQuotes, List.mem_filter] at h
  simp at h

theorem stripQuotes_eq_self {l : List Char} (h : '"' ∉ l) : stripQuotes l = l := by
  rw [stripQuotes]
  refine List.filter_eq_self.mpr ?_
  intro a ha
  simp only [decide_eq_true_eq, ne_eq]
  rintro rfl
  exact h ha

theorem mem_slashOver {c : Char} {l : List Char} (hc : c ∈ slashOver l) :
    (c ∈ l ∧ c ≠ '/') ∨ c ∈ [' ', 'o', 'v', 'e', 'r'] := by
  induction l with
  | nil => simp [slashOver] at hc
  | cons x r ih =>
    simp only [slashOver, List.mem_append] at hc
    rcases hc with h | h
    · split_ifs at h with hx
      · simp only [List.mem_cons, List.not_mem_nil, or_false] at h
        rcases h with rfl | rfl | rfl | rfl | rfl | rfl <;> simp
      · simp only [List.mem_cons, List.not_mem_nil, or_false] at h
        subst h
        exact Or.inl ⟨List.mem_cons_self .., hx⟩
    · rcases ih h with ⟨h1, h2⟩ | h'
      · exact Or.inl ⟨List.mem_cons_of_mem _ h1, h2⟩
      · exact Or.inr h'

theorem slashOver_not_mem_slash (l : List Char) : '/' ∉ slashOver l := by
  intro h
  rcases mem_slashOver h with ⟨-, h2⟩ | h2
  · exact h2 rfl
  · simp at h2

theorem slashOver_not_mem_quote {l : List Char} (h : '"' ∉ l) : '"' ∉ slashOver l := by
  intro hc
  rcases mem_slashOver hc with ⟨h1, -⟩ | h1
  · exact h h1
  · simp at h1

theorem slashOver_eq_self {l : List Char} (h : '/' ∉ l) : slashOver l = l := by
  induction l with
  | nil => rfl
  | cons x r ih =>
    have hx : x ≠ '/' := by
      rintro rfl
      exact h (List.mem_cons_self ..)
    rw [slashOver, if_neg hx, ih (fun hm => h (List.mem_cons_of_mem _ hm))]
    rfl

theorem cleanup_title_no_quote (n : Node) : '"' ∉ (Node.cleanup n).title :=
  slashOver_not_mem_quote (stripQuotes_not_mem _)

theorem cleanup_title_no_slash (n : Node) : '/' ∉ (Node.cleanup n).title :=
  slashOver_not_mem_slash _

theorem lookupIdx_map_pair (l : List Node) (k : List Char) :
    lookupIdx (l.map (fun n => (n.id, n))) k = l.find? (fun n => decide (n.id = k)) := by
  induction l with
  | nil => rfl
  | cons a l ih =>
    simp only [List.map_cons, lookupIdx, List.find?_cons]
    by_cases ha : a.id = k
    · rw [if_pos ha]
      simp [ha]
    · rw [if_neg ha]
      rw [decide_eq_false ha]
      exact ih

theorem lookupIdx_mem {m : List (List Char × Node)} {k : List Char} {n : Node}
    (h : lookupIdx m k = some n) : (k, n) ∈ m := by
  induction m with
  | nil => simp [lookupIdx] at h
  | cons p ps ih =>
    rw [lookupIdx] at h
    split_ifs at h with hp
    · injection h with h2
      have : p = (k, n) := by
        obtain ⟨p1, p2⟩ := p
        simp only at hp h2
        simp [hp, h2]
      rw [← this]
      exact List.mem_cons_self ..
    · exact List.mem_cons_of_mem _ (ih h)

theorem encodeSpaces_eq_self {l : List Char} (h : ' ' ∉ l) : encodeSpaces l = l := by
  induction l with
  | nil => rfl
  | cons x r ih =>
    have hx : x ≠ ' ' := by
      rintro rfl
      exact h (List.mem_cons_self ..)
    rw [encodeSpaces, if_neg hx, ih (fun hm => h (List.mem_cons_of_mem _ hm))]
    rfl

theorem space_not_mem_encodeSpaces (l : List Char) : ' ' ∉ encodeSpaces l := by
  intro h
  rcases mem_encodeSpaces h with h' | h' | h' | h'
  · induction l with
    | nil => simp [encodeSpaces] at h
    | cons x r ih =>
      simp only [encodeSpaces, List.mem_append] at h
      rcases h with hm | hm
      · split_ifs at hm with hx
        · simp at hm
        · simp only [List.mem_cons, List.not_mem_nil, or_false] at hm
          exact hx hm.symm
      · rcases List.mem_cons.mp h' with h'' | h''
        · subst h''
          rcases mem_encodeSpaces hm with h3 | h3 | h3 | h3
          · exact ih hm h3
          · simp at h3
          · simp at h3
          · simp at h3
        · exact ih hm h''
  · simp at h'
  · simp at h'
  · simp at h'

/-- Example node of the specification: id `ABC123`, title `My Note`. -/
def myNote : Node := ⟨"ABC123".toList, "file.org".toList, 0, "My Note".toList⟩

/-- Example index mapping `ABC123` to `myNote`. -/
def exIdx : List (List Char × Node) := [("ABC123".toList, myNote)]

/-- C1: the Link Resolver rewrites a token `[[id:<ID>][<DISPLAY>]]` whose id
the index maps to a node `n` into the replacement `linkRep n <DISPLAY>`,
that is `[[./<title with each space as %20>.md][<DISPLAY>]]` with the
display text preserved verbatim, and the rest of the document is processed
independently by the same pass. -/
theorem c1_link_rewrite {nodes : List (List Char × Node)} {i d : List Char} {n : Node}
    (rest : List Char)
    (hi : i ≠ []) (hic : ∀ c ∈ i, isIdChar c) (hd : d ≠ []) (hdc : ∀ c ∈ d, c ≠ ']')
    (hl : lookupIdx nodes i = some n) :
    patchText nodes (tokenStr i d ++ rest)
      = (patchText nodes rest).map (fun t => linkRep n d ++ t) :=
  patchText_match (tryMatch_complete rest hi hic hd hdc) hl

/-- Witness for C1 at the specification's concrete example: a document that
is exactly `[[id:ABC123][See this]]`, with `ABC123` mapped to a node titled
`My Note`, resolves to `[[./My%20Note.md][See this]]`. -/
theorem c1_link_rewrite_witness :
    patchText exIdx (tokenStr "ABC123".toList "See this".toList ++ [])
      = .ok "[[./My%20Note.md][See this]]".toList := by
  rw [c1_link_rewrite [] (by decide) (by decide) (by decide) (by decide) (by rfl)]
  rfl

/-- Example node whose backing file contains a link to an unmapped id. -/
def orphanNode : Node := ⟨"A1".toList, "a.org".toList, 0, "T".toList⟩

/-- Example filesystem with that backing file. -/
def exFS : FS := [("a.org".toList, "[[id:AB][x]]".toList)]

/-- C2: a document containing a link token whose id is absent from the index
makes resolution fail with a `linkResolutionError` naming an unmapped id —
the token is neither dropped nor passed through — and by the propagation
policy this error aborts the patch pass and hence the whole pipeline run. -/
theorem c2_unmapped_id_aborts {nodes : List (List Char × Node)} {n : Node} {fs : FS}
    {doc : List Char}
    (hread : fsRead fs n.file = some doc)
    (hex : ∃ p ∈ tokensOf doc, lookupIdx nodes p.1 = none) :
    ∃ i, lookupIdx nodes i = none ∧
      patch_links nodes n fs = .error (.linkResolutionError i) ∧
      (∀ rest, patchPass nodes (n :: rest) fs = .error (.linkResolutionError i)) ∧
      (∀ conv target_dir ns, nodes.map Prod.snd = n :: ns →
        runPipeline conv target_dir nodes fs = .error (.linkResolutionError i)) := by
  obtain ⟨i, herr, hnone⟩ := patchText_err_of_unmapped doc.length doc le_rfl hex
  have hpl : patch_links nodes n fs = .error (.linkResolutionError i) := by
    simp only [patch_links, hread, herr]
  have hpp : ∀ rest, patchPass nodes (n :: rest) fs = .error (.linkResolutionError i) := by
    intro rest
    simp only [patchPass, hpl]
  refine ⟨i, hnone, hpl, hpp, ?_⟩
  intro conv target_dir ns hmap
  simp only [runPipeline, hmap, hpp ns]

/-- Witness for C2: the file `a.org` holds `[[id:AB][x]]` and `AB` is not in
the example index, so patching the node aborts the run. -/
theorem c2_unmapped_id_aborts_witness :
    ∃ i, lookupIdx exIdx i = none ∧
      patch_links exIdx orphanNode exFS = .error (.linkResolutionError i) ∧
      (∀ rest, patchPass exIdx (orphanNode :: rest) exFS = .error (.linkResolutionError i)) ∧
      (∀ conv target_dir ns, exIdx.map Prod.snd = orphanNode :: ns →
        runPipeline conv target_dir exIdx exFS = .error (.linkResolutionError i)) :=
  c2_unmapped_id_aborts (by rfl) (by decide)

/-- C3: in the step sequence of `main`, every patch event precedes every
export event — no node is exported while any node is still unpatched. -/
theorem c3_patch_before_export (nodes : List (List Char × Node)) (i j : Nat)
    (a b : List Char)
    (hi : (pipelineTrace nodes)[i]? = some (Event.patchEv a))
    (hj : (pipelineTrace nodes)[j]? = some (Event.exportEv b)) :
    i < j := by
  have hlen : (nodes.map (fun p => Event.patchEv p.1)).length = nodes.length := by simp
  have hiL : i < nodes.length := by
    by_contra hge
    push_neg at hge
    rw [pipelineTrace, List.getElem?_append_right (by simpa [hlen] using hge)] at hi
    rw [List.getElem?_map] at hi
    cases hn : nodes[i - (nodes.map (fun p => Event.patchEv p.1)).length]? with
    | none => rw [hn] at hi; simp at hi
    | some p => rw [hn] at hi; simp at hi
  have hjL : nodes.length ≤ j := by
    by_contra hlt
    push_neg at hlt
    rw [pipelineTrace, List.getElem?_append, if_pos (by simpa [hlen] using hlt)] at hj
    rw [List.getElem?_map] at hj
    cases hn : nodes[j]? with
    | none => rw [hn] at hj; simp at hj
    | some p => rw [hn] at hj; simp at hj
  omega

/-- Witness for C3 on the one-node example index: its patch step (index 0)
precedes its export step (index 1). -/
theorem c3_patch_before_export_witness : 0 < 1 :=
  c3_patch_before_export exIdx 0 1 "ABC123".toList "ABC123".toList (by decide) (by decide)

/-- C4 (amended): the link rewrite is idempotent provided no node stored in
the index has a title containing `]`: a second pass over successfully
rewritten output returns it unchanged, because under that proviso no
rewritten `[[./X.md][Y]]` link (nor any position of the output) matches the
id-link token grammar. -/
theorem c4_patch_idempotent {nodes : List (List Char × Node)}
    (H : ∀ i n, lookupIdx nodes i = some n → ']' ∉ n.title)
    {s out : List Char} (h : patchText nodes s = .ok out) :
    patchText nodes out = .ok out :=
  patchText_fix H s.length s out le_rfl h

/-- Witness for C4 on the example index (title `My Note`, bracket-free):
rewriting the already-rewritten document is the identity. -/
theorem c4_patch_idempotent_witness :
    patchText exIdx "[[./My%20Note.md][See this]]".toList
      = .ok "[[./My%20Note.md][See this]]".toList := by
  have H : ∀ i n, lookupIdx exIdx i = some n → ']' ∉ n.title := by
    intro i n h
    simp only [exIdx, lookupIdx] at h
    split_ifs at h
    injection h with h2
    subst h2
    decide
  exact c4_patch_idempotent H (s := "[[id:ABC123][See this]]".toList) (by rfl)

/-- Example node whose title embeds a full link token; it survives
sanitization unchanged (no quotes, no slashes). -/
def brNode : Node := ⟨"AB".toList, "b.org".toList, 0, "x[[id:AB][y]]z".toList⟩

/-- Counterexample to C4 as stated: over the index built from `brNode`, the
document `[[id:AB][d]]` rewrites to `[[./x[[id:AB][y]]z.md][d]]`, and a
second application of the resolver rewrites the embedded token again
instead of being the identity. -/
theorem c4_counterexample :
    patchText (get_nodes [brNode]) "[[id:AB][d]]".toList
        = .ok "[[./x[[id:AB][y]]z.md][d]]".toList
      ∧ patchText (get_nodes [brNode]) "[[./x[[id:AB][y]]z.md][d]]".toList
        = .ok "[[./x[[./x[[id:AB][y]]z.md][y]]z.md][d]]".toList
      ∧ "[[./x[[id:AB][y]]z.md][d]]".toList
        ≠ "[[./x[[./x[[id:AB][y]]z.md][y]]z.md][d]]".toList :=
  ⟨by rfl, by rfl, by decide⟩

/-- C5: when the destination file `<target_dir>/<title>.md` already exists,
the Export Driver returns success at once, does not invoke the converter
(whatever converter is supplied), and leaves the filesystem unchanged. -/
theorem c5_export_skips_existing (conv : Converter) (target_dir : List Char) (n : Node)
    (fs : FS) (hex : (fsRead fs (target_dir ++ '/' :: exportFileName n)).isSome) :
    exportNode conv target_dir n fs = .ok (fs, false) := by
  unfold exportNode
  rw [if_pos hex]

/-- Witness for C5: with `out/My Note.md` already present, export succeeds
without converting and without changing the filesystem, for an arbitrary
concrete converter. -/
theorem c5_export_skips_existing_witness :
    exportNode (fun _ _ fs => .ok fs) "out".toList myNote
        [("out/My Note.md".toList, "old".toList)]
      = .ok ([("out/My Note.md".toList, "old".toList)], false) :=
  c5_export_skips_existing _ _ _ _ (by decide)

/-- C6: sanitization removes every quote character from title, id and file
and replaces every slash in the title by " over " rather than stripping it;
in particular title `A/B` becomes `A over B` and `Foo"Bar` becomes
`FooBar`. -/
theorem c6_cleanup_sanitizes :
    (∀ n : Node, '"' ∉ (Node.cleanup n).title ∧ '"' ∉ (Node.cleanup n).id ∧
      '"' ∉ (Node.cleanup n).file ∧ '/' ∉ (Node.cleanup n).title)
    ∧ (Node.cleanup ⟨"I1".toList, "f1".toList, 0, "A/B".toList⟩).title = "A over B".toList
    ∧ (Node.cleanup ⟨"I1".toList, "f1".toList, 0, "Foo\"Bar".toList⟩).title
      = "FooBar".toList := by
  refine ⟨fun n => ⟨cleanup_title_no_quote n, ?_, ?_, cleanup_title_no_slash n⟩,
    by decide, by decide⟩
  · exact stripQuotes_not_mem _
  · exact stripQuotes_not_mem _

/-- C7: sanitization is idempotent: cleaning an already-cleaned record
leaves every field unchanged. -/
theorem c7_cleanup_idempotent (n : Node) : Node.cleanup (Node.cleanup n) = Node.cleanup n := by
  obtain ⟨i, f, lv, t⟩ := n
  simp only [Node.cleanup, Node.mk.injEq]
  refine ⟨?_, ?_, trivial, ?_⟩
  · exact stripQuotes_eq_self (stripQuotes_not_mem _)
  · exact stripQuotes_eq_self (stripQuotes_not_mem _)
  · rw [stripQuotes_eq_self (slashOver_not_mem_quote (stripQuotes_not_mem _)),
      slashOver_eq_self (slashOver_not_mem_slash _)]

/-- C8: the index maps each id to the node of the last sanitized row
carrying that id — the lookup equals the first match over the reversed row
order (last-write-wins) — and duplicate ids raise no error; in particular
with two rows sharing id `K1` the second row's node is returned. -/
theorem c8_last_write_wins :
    (∀ (rows : List Node) (i : List Char),
      lookupIdx (get_nodes rows) i
        = ((rows.map Node.cleanup).reverse).find? (fun n => decide (n.id = i)))
    ∧ lookupIdx (get_nodes [⟨"K1".toList, "f1".toList, 0, "First".toList⟩,
        ⟨"K1".toList, "f2".toList, 0, "Second".toList⟩]) "K1".toList
      = some ⟨"K1".toList, "f2".toList, 0, "Second".toList⟩ := by
  constructor
  · intro rows i
    unfold get_nodes
    rw [← List.map_reverse, lookupIdx_map_pair]
  · decide

/-- C9: index self-consistency: a successful lookup returns a node whose id
equals the looked-up key and which is already sanitized: no quote in id,
file or title, and no slash in the title. -/
theorem c9_index_invariant (rows : List Node) (i : List Char) (n : Node)
    (h : lookupIdx (get_nodes rows) i = some n) :
    n.id = i ∧ '"' ∉ n.id ∧ '"' ∉ n.file ∧ '"' ∉ n.title ∧ '/' ∉ n.title := by
  have hmem := lookupIdx_mem h
  unfold get_nodes at hmem
  rw [List.mem_reverse, List.mem_map] at hmem
  obtain ⟨m, hm, heq⟩ := hmem
  rw [List.mem_map] at hm
  obtain ⟨row, -, rfl⟩ := hm
  obtain ⟨h1, h2⟩ := Prod.mk.injEq .. |>.mp heq
  subst h2
  exact ⟨h1, stripQuotes_not_mem _, stripQuotes_not_mem _,
    cleanup_title_no_quote _, cleanup_title_no_slash _⟩

/-- Witness for C9 at a concrete one-row index. -/
theorem c9_index_invariant_witness :
    myNote.id = "ABC123".toList ∧ '"' ∉ myNote.id ∧ '"' ∉ myNote.file ∧
      '"' ∉ myNote.title ∧ '/' ∉ myNote.title :=
  c9_index_invariant [myNote] "ABC123".toList myNote (by decide)

/-- C10: the filename component the Export Driver writes and the one the
Link Resolver emits into rewritten links are equal exactly when the title
contains no space; a title with a space makes them differ (literal spaces
against `%20`). -/
theorem c10_filename_mismatch (n : Node) :
    exportFileName n = linkFileName n ↔ ' ' ∉ n.title := by
  constructor
  · intro h hsp
    unfold exportFileName linkFileName at h
    have h2 := List.append_cancel_right h
    rw [h2] at hsp
    exact space_not_mem_encodeSpaces _ hsp
  · intro h
    unfold exportFileName linkFileName
    rw [encodeSpaces_eq_self h]
